import Mathlib

/-!
Verification development for the HyperLiquid-Agent retrieval-and-ranking
pipeline (`agent.py`, `reranker.py`, `vector_store.py`, `api.py`).

Python strings are embedded as `List Char`; Python floats appearing in the
scoring code are embedded as `ℚ` (every constant in the source is an exact
decimal and the code only adds, multiplies and compares them, so rational
arithmetic reproduces the orderings the code computes).  Python's stable
`sorted` is embedded as a stable insertion sort.  `None`-valued string
attributes are embedded as empty strings, matching how the code treats
falsy values.  Wall-clock time enters the code only through the parsed
`published_at` age in days; the date-parsing layer (`strptime` /
`fromisoformat`) is abstracted by a `publishedDaysAgo : Option Int` field
(`none` = missing or unparseable date), which is exactly the information
the scoring code extracts from it.
-/

/-! ### Python string primitives on `List Char` -/

/-- Whitespace test used by Python's `strip`/`split` (ASCII subset). -/
def isSpaceChar (c : Char) : Bool :=
  c = ' ' || c = '\t' || c = '\n' || c = '\r'

/-- Python `s.lower()` (ASCII case fold, which is all the source uses). -/
def pyLower (s : List Char) : List Char :=
  s.map Char.toLower

/-- Python `pat in s`: substring containment (empty pattern is contained). -/
def pyContains (s pat : List Char) : Bool :=
  match s with
  | [] => pat.isEmpty
  | _ :: rest => pat.isPrefixOf s || pyContains rest pat

/-- Recursion core of `pyReplace`, structurally recursive on a fuel
argument so that it reduces in the kernel; each step consumes at least one
character, so fuel `s.length` never runs out (the fuel-exhausted branch is
unreachable for the wrapper below). -/
def pyReplaceFuel (pat rep : List Char) : Nat → List Char → List Char
  | _, [] => []
  | 0, s => s
  | fuel + 1, c :: rest =>
    if pat ≠ [] ∧ pat.isPrefixOf (c :: rest) then
      rep ++ pyReplaceFuel pat rep fuel ((c :: rest).drop pat.length)
    else
      c :: pyReplaceFuel pat rep fuel rest

/-- Python `s.replace(pat, rep)` for a non-empty `pat`: replace every
non-overlapping occurrence, scanning left to right.  (The source never
calls `replace` with an empty pattern; for `pat = []` this returns `s`.) -/
def pyReplace (s pat rep : List Char) : List Char :=
  pyReplaceFuel pat rep s.length s

/-- Python `s.strip()`. -/
def pyStrip (s : List Char) : List Char :=
  ((s.dropWhile isSpaceChar).reverse.dropWhile isSpaceChar).reverse

/-- Python `s.rstrip()`. -/
def pyRStrip (s : List Char) : List Char :=
  (s.reverse.dropWhile isSpaceChar).reverse

/-- Recursion core of `pySplitSep`, structurally recursive on a fuel
argument (same scheme as `pyReplaceFuel`). -/
def pySplitSepFuel (sep : List Char) : Nat → List Char → List (List Char)
  | _, [] => [[]]
  | 0, s => [s]
  | fuel + 1, c :: rest =>
    if sep ≠ [] ∧ sep.isPrefixOf (c :: rest) then
      [] :: pySplitSepFuel sep fuel ((c :: rest).drop sep.length)
    else
      match pySplitSepFuel sep fuel rest with
      | [] => [[c]]
      | h :: t => (c :: h) :: t

/-- Python `s.split(sep)` for a non-empty separator: split at every
non-overlapping occurrence, keeping empty chunks.  (The source only calls
this with `sep = ". "`; for `sep = []` this returns `[s]` unsplit.) -/
def pySplitSep (sep s : List Char) : List (List Char) :=
  pySplitSepFuel sep s.length s

/-- Python `s.split()` (no argument): split on whitespace runs, dropping
empty chunks. -/
def pySplitWs (s : List Char) : List (List Char) :=
  (s.foldr
    (fun c acc =>
      if isSpaceChar c then [] :: acc
      else
        match acc with
        | [] => [[c]]
        | w :: ws => (c :: w) :: ws)
    []).filter (fun w => ¬ w.isEmpty)

/-- Python `sep.join(parts)`. -/
def pyJoin (sep : List Char) (parts : List (List Char)) : List Char :=
  List.intercalate sep parts

/-- Python `s[:k]`, including the negative-index convention
(`s[:-m]` keeps all but the last `m` characters). -/
def pySliceTo (s : List Char) (k : Int) : List Char :=
  if 0 ≤ k then s.take k.toNat else s.take (s.length - (-k).toNat)

/-! ### Data model

One record type stands for the result dictionaries that flow through the
pipeline (`vector_store.search` hits, reranker outputs, enhanced results).
Optional score fields model dictionary keys that may be absent; the
`metadata` sub-dictionary is a fixed record because every producer in the
source populates exactly these keys. -/

structure Metadata where
  title : List Char := []
  summary : List Char := []
  url : List Char := []
  publishedAt : List Char := []
  /-- Age in days of `publishedAt` relative to the current time, as the
  source's date-parsing layer would compute it; `none` when the date is
  missing or unparseable.  Abstracts `datetime.strptime` /
  `datetime.fromisoformat` and the subtraction from `now`. -/
  publishedDaysAgo : Option Int := none
  channelName : List Char := []
  channelType : List Char := []
  sourceEntityName : List Char := []
  /-- Names extracted from the `hyperliquid_tokens` JSON payload; `[]` when
  the field is absent, falsy, or fails to parse (the `except: pass` path). -/
  tokenNames : List (List Char) := []
deriving DecidableEq, Repr

structure SearchResult where
  id : List Char := []
  text : List Char := []
  metadata : Metadata := {}
  cohereScore : Option ℚ := none
  cohereRank : Option Nat := none
  relevanceCategory : Option (List Char) := none
  originalIndex : Option Nat := none
  recencyScore : Option ℚ := none
  finalScore : Option ℚ := none
  importanceScore : Option ℚ := none
  hybridScore : Option ℚ := none
  daysAgo : Option Int := none
  sourceTier : Option (List Char) := none
deriving DecidableEq, Repr

/-! ### Stable descending sort

Python's `sorted(xs, key=k, reverse=True)` is a stable sort: elements are
ordered by descending key and elements with equal keys keep their original
relative order.  Any stable descending sort computes the same list, so the
source's Timsort is embedded as a stable insertion sort. -/

section StableSort

variable {α : Type}

def insertDesc (key : α → ℚ) (x : α) : List α → List α
  | [] => [x]
  | y :: ys => if key y < key x then x :: y :: ys else y :: insertDesc key x ys

def sortDesc (key : α → ℚ) (l : List α) : List α :=
  l.foldl (fun acc x => insertDesc key x acc) []

/-- Descending sortedness by a key. -/
def SortedDescBy (key : α → ℚ) (l : List α) : Prop :=
  l.Pairwise (fun a b => key b ≤ key a)

theorem insertDesc_perm (key : α → ℚ) (x : α) (l : List α) :
    (insertDesc key x l).Perm (x :: l) := by
  induction l with
  | nil => simp [insertDesc]
  | cons y ys ih =>
    simp only [insertDesc]
    split
    · exact List.Perm.refl _
    · exact (ih.cons y).trans (List.Perm.swap x y ys)

theorem insertDesc_sorted (key : α → ℚ) (x : α) {l : List α}
    (h : SortedDescBy key l) : SortedDescBy key (insertDesc key x l) := by
  induction l with
  | nil => simp [insertDesc, SortedDescBy]
  | cons y ys ih =>
    rcases List.pairwise_cons.mp h with ⟨hy, hys⟩
    simp only [insertDesc]
    split
    · rename_i hlt
      refine List.pairwise_cons.mpr ⟨?_, h⟩
      intro z hz
      rcases List.mem_cons.mp hz with hz | hz
      · exact hz ▸ le_of_lt hlt
      · exact (hy z hz).trans (le_of_lt hlt)
    · rename_i hnlt
      refine List.pairwise_cons.mpr ⟨?_, ih hys⟩
      intro z hz
      rcases List.mem_cons.mp ((insertDesc_perm key x ys).mem_iff.mp hz) with hz | hz
      · exact hz ▸ le_of_not_lt hnlt
      · exact hy z hz

theorem insertDesc_filter (key : α → ℚ) (x : α) (q : ℚ) {l : List α}
    (h : SortedDescBy key l) :
    (insertDesc key x l).filter (fun a => decide (key a = q)) =
      if key x = q then
        l.filter (fun a => decide (key a = q)) ++ [x]
      else
        l.filter (fun a => decide (key a = q)) := by
  induction l with
  | nil =>
    by_cases hxq : key x = q <;> simp [insertDesc, hxq]
  | cons y ys ih =>
    rcases List.pairwise_cons.mp h with ⟨hy, hys⟩
    simp only [insertDesc]
    split
    · rename_i hlt
      by_cases hxq : key x = q
      · have hnone : (y :: ys).filter (fun a => decide (key a = q)) = [] := by
          rw [List.filter_eq_nil_iff]
          intro z hz
          have hzy : key z ≤ key y := by
            rcases List.mem_cons.mp hz with hz | hz
            · exact hz ▸ le_refl _
            · exact hy z hz
          have : key z < q := lt_of_le_of_lt hzy (hxq ▸ hlt)
          simp [ne_of_lt this]
        simp [List.filter_cons, hxq, hnone]
      · by_cases hyq : key y = q <;> simp [List.filter_cons, hxq, hyq]
    · rename_i hnlt
      rw [List.filter_cons, ih hys]
      by_cases hxq : key x = q <;> by_cases hyq : key y = q <;>
        simp [List.filter_cons, hxq, hyq]

theorem sortDescAux_perm (key : α → ℚ) (l acc : List α) :
    (l.foldl (fun a x => insertDesc key x a) acc).Perm (acc ++ l) := by
  induction l generalizing acc with
  | nil => simp
  | cons x xs ih =>
    simp only [List.foldl_cons]
    refine (ih (insertDesc key x acc)).trans ?_
    refine ((insertDesc_perm key x acc).append_right xs).trans ?_
    exact List.perm_middle.symm

theorem sortDescAux_sorted (key : α → ℚ) (l : List α) :
    ∀ acc : List α, SortedDescBy key acc →
      SortedDescBy key (l.foldl (fun a x => insertDesc key x a) acc) := by
  induction l with
  | nil => intro acc h; simpa using h
  | cons x xs ih =>
    intro acc h
    simpa using ih (insertDesc key x acc) (insertDesc_sorted key x h)

theorem sortDescAux_filter (key : α → ℚ) (l : List α) (q : ℚ) :
    ∀ acc : List α, SortedDescBy key acc →
      (l.foldl (fun a x => insertDesc key x a) acc).filter
          (fun a => decide (key a = q)) =
        acc.filter (fun a => decide (key a = q)) ++
          l.filter (fun a => decide (key a = q)) := by
  induction l with
  | nil => intro acc h; simp
  | cons x xs ih =>
    intro acc h
    simp only [List.foldl_cons]
    rw [ih (insertDesc key x acc) (insertDesc_sorted key x h),
      insertDesc_filter key x q h]
    by_cases hxq : key x = q <;> simp [List.filter_cons, hxq]

theorem sortDesc_perm (key : α → ℚ) (l : List α) : (sortDesc key l).Perm l := by
  simpa [sortDesc] using sortDescAux_perm key l []

theorem sortDesc_sorted (key : α → ℚ) (l : List α) :
    SortedDescBy key (sortDesc key l) :=
  sortDescAux_sorted key l [] (by simp [SortedDescBy])

theorem sortDesc_filter (key : α → ℚ) (l : List α) (q : ℚ) :
    (sortDesc key l).filter (fun a => decide (key a = q)) =
      l.filter (fun a => decide (key a = q)) := by
  simpa [sortDesc] using sortDescAux_filter key l q [] (by simp [SortedDescBy])

theorem sortDesc_length (key : α → ℚ) (l : List α) :
    (sortDesc key l).length = l.length :=
  (sortDesc_perm key l).length_eq

theorem sortDesc_mem (key : α → ℚ) (l : List α) {a : α} :
    a ∈ sortDesc key l ↔ a ∈ l :=
  (sortDesc_perm key l).mem_iff

end StableSort

/-- Shorthand turning a Lean string literal into the `List Char` embedding. -/
def str (s : String) : List Char :=
  s.toList

/-! ### `vector_store.py` -/

namespace VectorStore

/-- Loop of `VectorStore._deduplicate_results` with the accumulated
`seen_ids` set made explicit (membership in a list models membership in the
Python `set`). -/
def dedupAux (seen : List (List Char)) : List SearchResult → List SearchResult
  | [] => []
  | r :: rs =>
    if r.id ∈ seen then dedupAux seen rs
    else r :: dedupAux (r.id :: seen) rs

/-- `VectorStore._deduplicate_results`: keep the first hit for each `id`,
drop every later hit with an already-seen `id`, preserving order. -/
def deduplicate_results (results : List SearchResult) : List SearchResult :=
  dedupAux [] results

end VectorStore

/-! ### `agent.py` -/

namespace Agent

structure SourceTierEntry where
  name : List Char
  sources : List (List Char)
  baseScore : ℚ
  description : List Char
deriving DecidableEq, Repr

structure TierInfo where
  tier : List Char
  baseScore : ℚ
  description : List Char
deriving DecidableEq, Repr

/-- `SourceCredibilityAnalyzer.source_tiers`, in dict insertion order. -/
def source_tiers : List SourceTierEntry :=
  [ ⟨str "tier_1",
      [str "coindesk", str "cointelegraph", str "the block", str "decrypt",
        str "bloomberg", str "reuters"], 0.9,
      str "Premium financial and crypto news outlets"⟩,
    ⟨str "tier_2",
      [str "panewslab", str "cryptonews", str "wu blockchain",
        str "blockworks", str "coindesk"], 0.7,
      str "Established crypto-focused publications"⟩,
    ⟨str "tier_3",
      [str "odaily", str "beincrypto", str "cryptoslate", str "ambcrypto"],
      0.5, str "Standard crypto news sources"⟩,
    ⟨str "social",
      [str "twitter", str "telegram", str "discord", str "reddit"], 0.3,
      str "Social media and community platforms"⟩ ]

/-- `SourceCredibilityAnalyzer.get_source_tier`: first tier whose source
list has a substring match against the lowercased source name, else the
`unknown` tier with base score 0.1. -/
def get_source_tier (source : List Char) : TierInfo :=
  match source_tiers.find?
      (fun t => t.sources.any (fun s => pyContains (pyLower source) s)) with
  | some t => ⟨t.name, t.baseScore, t.description⟩
  | none => ⟨str "unknown", 0.1, str "Unrecognized source"⟩

def high_impact_keywords : List (List Char) :=
  [str "breaking", str "exclusive", str "major", str "significant",
    str "record", str "milestone", str "launch", str "partnership",
    str "integration", str "hack", str "exploit", str "vulnerability",
    str "announcement", str "official", str "confirmed", str "verified"]

def financial_keywords : List (List Char) :=
  [str "million", str "billion", str "tvl", str "volume", str "price",
    str "$", str "apy", str "yield", str "profit", str "loss", str "surge",
    str "crash", str "growth", str "revenue", str "valuation"]

def technical_keywords : List (List Char) :=
  [str "upgrade", str "update", str "feature", str "bug", str "fix",
    str "optimization", str "scalability", str "security", str "audit",
    str "compliance"]

/-- One keyword category of `_calculate_importance_score`: count the
keywords present in the (lowercased) text and cap the weighted count at
three times the weight. -/
def keyword_score (text : List Char) (keywords : List (List Char))
    (weight : ℚ) : ℚ :=
  let matchCount : Nat := (keywords.filter (fun k => pyContains text k)).length
  min ((matchCount : ℚ) * weight) (weight * 3)

/-- The `channel_bonus` dict lookup with default 0. -/
def channel_bonus (channelType : List Char) : ℚ :=
  if channelType = str "news" then 0.15
  else if channelType = str "official" then 0.20
  else if channelType = str "twitter" then 0.05
  else if channelType = str "telegram" then 0.02
  else if channelType = str "rss" then 0.10
  else 0

/-- The accumulated importance score of
`HyperLiquidAgent._calculate_importance_score` before the final clamp,
written as the sum of its sequential `+=` / `-=` updates: base 0.3, source
tier bonus, three capped keyword categories, channel bonus, content-length
adjustment, url-presence bonus. -/
def importance_raw (result : SearchResult) : ℚ :=
  0.3 + (get_source_tier result.metadata.sourceEntityName).baseScore * 0.4
    + keyword_score (pyLower result.text) high_impact_keywords 0.08
    + keyword_score (pyLower result.text) financial_keywords 0.05
    + keyword_score (pyLower result.text) technical_keywords 0.03
    + channel_bonus (pyLower result.metadata.channelType)
    + (if (pyLower result.text).length > 500 then 0.05
      else if (pyLower result.text).length < 100 then -0.05
      else 0)
    + (if result.metadata.url ≠ [] ∧
          pyContains result.metadata.url (str "http") then 0.03
      else 0)

/-- `HyperLiquidAgent._calculate_importance_score`: the accumulated score,
clamped above by `min(importance_score, 1.0)`. -/
def calculate_importance_score (result : SearchResult) : ℚ :=
  min (importance_raw result) 1

/-- The decay chain of `HyperLiquidAgent._calculate_recency_score` as a
function of the parsed age in days. -/
def recency_step (daysAgo : Int) : ℚ :=
  if daysAgo ≤ 1 then 1
  else if daysAgo ≤ 7 then 0.9
  else if daysAgo ≤ 30 then 0.7
  else if daysAgo ≤ 90 then 0.4
  else if daysAgo ≤ 365 then 0.2
  else 0.1

/-- `HyperLiquidAgent._calculate_recency_score`: `(0.1, 999)` on a missing
or unparseable date, else the decay chain on the age in days. -/
def calculate_recency_score (m : Metadata) : ℚ × Int :=
  if m.publishedAt = [] then (0.1, 999)
  else
    match m.publishedDaysAgo with
    | none => (0.1, 999)
    | some d => (recency_step d, d)

/-- The `scoring_weights` configuration, defaulting to 0.5 / 0.3 / 0.2. -/
structure ScoringWeights where
  relevance : ℚ := 0.5
  recency : ℚ := 0.3
  importance : ℚ := 0.2
deriving DecidableEq, Repr

/-- `HyperLiquidAgent._enhance_result_with_scores` (the `rerank_timestamp`
wall-clock field is not modeled). -/
def enhance_result_with_scores (w : ScoringWeights) (r : SearchResult) :
    SearchResult :=
  let rec_days := calculate_recency_score r.metadata
  let importance := calculate_importance_score r
  let cohere := r.cohereScore.getD 0
  let hybrid := w.relevance * cohere + w.recency * rec_days.1
      + w.importance * importance
  { r with
    cohereScore := some cohere
    recencyScore := some rec_days.1
    importanceScore := some importance
    hybridScore := some hybrid
    daysAgo := some rec_days.2
    sourceTier := some (get_source_tier r.metadata.sourceEntityName).tier }

/-- The sort key of `_format_results_with_analysis`:
`x.get('hybrid_score', 0)`. -/
def hybrid_key (r : SearchResult) : ℚ :=
  r.hybridScore.getD 0

/-- The ranking computed by `HyperLiquidAgent._format_results_with_analysis`
(lines 376-384): enhance every result with scores, then
`sorted(..., key=hybrid_score, reverse=True)` — a stable descending sort on
`hybrid_score` alone.  The prose rendering of the ranked list into the
output string is not modeled; the ranked list itself is the object the
ordering claims are about. -/
def rank_results (w : ScoringWeights) (results : List SearchResult) :
    List SearchResult :=
  sortDesc hybrid_key (results.map (enhance_result_with_scores w))

/-- The `replacements` synonym dict of `_generate_related_queries`, in dict
insertion order. -/
def replacements : List (List Char × List (List Char)) :=
  [ (str "influencer",
      [str "trader", str "analyst", str "whale", str "investor"]),
    (str "tweets",
      [str "posts", str "mentions", str "comments", str "discussions"]),
    (str "recently",
      [str "latest", str "this week", str "this month", str "new"]),
    (str "vault",
      [str "vaults", str "yield farming", str "liquidity mining",
        str "staking"]),
    (str "price", [str "value", str "cost", str "rate", str "trading"]),
    (str "volume", [str "trading volume", str "liquidity", str "activity"]) ]

/-- `HyperLiquidAgent._generate_related_queries`. -/
def generate_related_queries (original_query : List Char) :
    List (List Char) :=
  let query_lower := pyLower original_query
  let expansions :=
    replacements.foldl
      (fun acc p =>
        if pyContains query_lower p.1 then
          (p.2.take 2).foldl
            (fun acc2 alt =>
              let new_query := pyReplace original_query p.1 alt
              if new_query ≠ original_query then acc2 ++ [new_query]
              else acc2)
            acc
        else acc)
      []
  let expansions :=
    if ¬ pyContains query_lower (str "hyperliquid") then
      expansions ++ [str "HyperLiquid " ++ original_query]
    else expansions
  let expansions :=
    if [str "token", str "price", str "trading", str "volume"].any
        (fun t => pyContains query_lower t) then
      expansions ++ [pyReplace original_query (str "HyperLiquid")
        (str "HYPE token")]
    else expansions
  expansions.take 4

/-- External calls `search_mentions` can issue, in order. -/
inductive ExtCall
  | vectorSearch (query : List Char) (topK : Int)
  | rerankCall (query : List Char) (topK : Int)
deriving DecidableEq, Repr

/-- Outcome of a `search_mentions` call: the caught-exception error string,
or the ranked result list that the formatted output is rendered from. -/
inductive SearchOutcome
  | searchError (msg : List Char)
  | ranked (results : List SearchResult)
deriving DecidableEq, Repr

/-- The external collaborators of `search_mentions`: the vector store
(which may raise, carried as `Except`) and the reranker component (total,
because `rerank` never raises to its caller). -/
structure SearchEnv where
  vsSearch : List Char → Int → Except (List Char) (List SearchResult)
  rerank : List Char → List SearchResult → Int → List SearchResult

/-- `HyperLiquidAgent.search_mentions`, with the external calls it performs
recorded as a trace.  The validation `ValueError`s are caught by the
enclosing `except` and surface as the returned error outcome; metric
recording and log writes are in-process observability and are not part of
the trace.  A failed related-query search is caught and skipped; a failed
base search propagates to the `except` and becomes an error outcome. -/
def search_mentions (env : SearchEnv) (w : ScoringWeights)
    (query : List Char) (top_k : Int) : SearchOutcome × List ExtCall :=
  if pyStrip query = [] then
    (.searchError (str "Query cannot be empty"), [])
  else if top_k ≤ 0 ∨ top_k > 50 then
    (.searchError (str "top_k must be between 1 and 50"), [])
  else
    match env.vsSearch query top_k with
    | .error e => (.searchError e, [.vectorSearch query top_k])
    | .ok base_results =>
      let related := generate_related_queries query
      let all_results :=
        related.foldl
          (fun acc rq =>
            match env.vsSearch rq 5 with
            | .ok rs => acc ++ rs
            | .error _ => acc)
          base_results
      let unique := VectorStore.deduplicate_results all_results
      let reranked := env.rerank query unique top_k
      (.ranked (rank_results w reranked),
        .vectorSearch query top_k ::
          (related.map (fun rq => ExtCall.vectorSearch rq 5) ++
            [ExtCall.rerankCall query top_k]))

end Agent

/-! ### `api.py` -/

namespace Api

/-- Outcome of the `/search` handler up to the point where it either
rejects the request or launches the CLI subprocess that performs the
actual retrieval. -/
inductive ApiSearchOutcome
  | httpError (status : Nat) (detail : List Char)
  | runsCli (query : List Char) (topK : Int)
deriving DecidableEq, Repr

/-- The guard sequence of `search_hyperliquid` in `api.py`: agent
availability, then empty-query validation, then `top_k` range validation,
and only then the subprocess is started. -/
def search_hyperliquid (agentReady : Bool) (query : List Char)
    (top_k : Int) : ApiSearchOutcome :=
  if ¬ agentReady then .httpError 503 (str "Agent not initialized")
  else if pyStrip query = [] then
    .httpError 400 (str "Query cannot be empty")
  else if top_k ≤ 0 ∨ top_k > 50 then
    .httpError 400 (str "top_k must be between 1 and 50")
  else .runsCli query top_k

end Api

/-! ### `reranker.py` (`AdvancedCohereReranker`)

The class defines `rerank` twice; the later definition (line 610, the one
with the recency fallback) overrides the earlier one and is the method the
agent actually calls, so that is the one embedded here.  The Cohere client
is an external collaborator, embedded as an oracle giving the outcome of
each attempt; `time.sleep` backoff and `execution_time` are wall-clock
effects with no influence on the returned data and are not modeled. -/

namespace Reranker

structure RerankConfig where
  model : List Char := str "rerank-english-v3.0"
  maxRetries : Nat := 3
  maxDocLength : Int := 1000
  relevanceThreshold : ℚ := 0.1
deriving DecidableEq, Repr

/-- The sentence loop of `_intelligent_truncate`: greedily append
`sentence + '. '` while the running length fits, stop at the first
sentence that does not. -/
def sentence_loop (maxLength : Int) :
    List (List Char) → List Char → List Char
  | [], truncated => truncated
  | s :: rest, truncated =>
    if (truncated.length + s.length + 2 : Int) ≤ maxLength then
      sentence_loop maxLength rest (truncated ++ s ++ str ". ")
    else truncated

/-- The word loop of `_intelligent_truncate`: greedily append words while
the space-joined length fits in `maxLength - 3`, stop at the first word
that does not. -/
def word_loop (maxLength : Int) :
    List (List Char) → List (List Char) → List (List Char)
  | [], acc => acc
  | w :: rest, acc =>
    if ((pyJoin (str " ") (acc ++ [w])).length : Int) ≤ maxLength - 3 then
      word_loop maxLength rest (acc ++ [w])
    else acc

/-- `AdvancedCohereReranker._intelligent_truncate`. -/
def intelligent_truncate (text : List Char) (maxLength : Int) : List Char :=
  if (text.length : Int) ≤ maxLength then text
  else
    let sentences := pySplitSep (str ". ") text
    let truncated := sentence_loop maxLength sentences []
    if truncated ≠ [] then pyRStrip truncated
    else pyJoin (str " ") (word_loop maxLength (pySplitWs text) []) ++ str "..."

/-- The `content_parts` list built by `_create_rich_document_context`
before the final length check. -/
def content_parts (cfg : RerankConfig) (r : SearchResult) :
    List (List Char) :=
  let m := r.metadata
  let parts : List (List Char) := []
  let title := pyStrip m.title
  let parts := if title ≠ [] then parts ++ [str "TITLE: " ++ title] else parts
  let source := pyStrip m.sourceEntityName
  let channel := pyStrip m.channelName
  let parts :=
    if source ≠ [] then
      parts ++ [str "SOURCE: " ++ source ++
        (if channel ≠ [] ∧ channel ≠ source then
          str " (" ++ channel ++ str ")"
        else [])]
    else parts
  let published := pyStrip m.publishedAt
  let parts :=
    if published ≠ [] then parts ++ [str "DATE: " ++ published] else parts
  let summary := pyStrip m.summary
  let parts :=
    if summary ≠ [] then parts ++ [str "SUMMARY: " ++ summary] else parts
  let main_content := pyStrip r.text
  let parts :=
    if main_content ≠ [] then
      parts ++ [str "CONTENT: " ++ intelligent_truncate main_content
        (cfg.maxDocLength - ((pyJoin (str "\n") parts).length : Int) - 20)]
    else parts
  let parts :=
    if m.tokenNames ≠ [] then
      parts ++ [str "TOKENS: " ++ pyJoin (str ", ") m.tokenNames]
    else parts
  let url := pyStrip m.url
  let parts :=
    if url ≠ [] ∧ url.length < 200 then parts ++ [str "URL: " ++ url]
    else parts
  parts

/-- The final length check of `_create_rich_document_context`: a raw
character-level slice to `maxDocLength - 3` characters plus `"..."` when
the joined document exceeds `maxDocLength`. -/
def final_length_check (maxDocLength : Int) (final_doc : List Char) :
    List Char :=
  if (final_doc.length : Int) > maxDocLength then
    pySliceTo final_doc (maxDocLength - 3) ++ str "..."
  else final_doc

/-- `AdvancedCohereReranker._create_rich_document_context`. -/
def create_rich_document_context (cfg : RerankConfig) (r : SearchResult) :
    List Char :=
  final_length_check cfg.maxDocLength (pyJoin (str "\n") (content_parts cfg r))

/-- Loop of `_prepare_documents_for_reranking`, carrying the running
original index; returns the document list and, aligned with it, the
`metadata_map` sending each document position to its original index. -/
def prepareAux (cfg : RerankConfig) :
    List SearchResult → Nat → List (List Char) × List Nat
  | [], _ => ([], [])
  | r :: rs, idx =>
    let doc_text := create_rich_document_context cfg r
    let rest := prepareAux cfg rs (idx + 1)
    if doc_text ≠ [] ∧ (pyStrip doc_text).length > 10 then
      (doc_text :: rest.1, idx :: rest.2)
    else rest

/-- `AdvancedCohereReranker._prepare_documents_for_reranking`. -/
def prepare_documents_for_reranking (cfg : RerankConfig)
    (results : List SearchResult) : List (List Char) × List Nat :=
  prepareAux cfg results 0

/-- `AdvancedCohereReranker._enhance_query_for_hyperliquid`. -/
def enhance_query_for_hyperliquid (query : List Char) : List Char :=
  let enhanced :=
    if ¬ pyContains (pyLower query) (str "hyperliquid") then
      str "HyperLiquid " ++ query
    else query
  let crypto_keywords :=
    [str "DeFi", str "DEX", str "trading", str "liquidity", str "yield",
      str "vault", str "token"]
  if ¬ crypto_keywords.any
      (fun k => pyContains (pyLower query) (pyLower k)) then
    enhanced ++ str " cryptocurrency DeFi"
  else enhanced

/-- One `(index, relevance_score)` entry of a Cohere rerank response. -/
structure RerankEntry where
  index : Nat
  relevance_score : ℚ
deriving DecidableEq, Repr

/-- The `relevance_category` thresholds of `_process_rerank_response`. -/
def relevance_category (score : ℚ) : List Char :=
  if score ≥ 0.8 then str "high"
  else if score ≥ 0.5 then str "medium"
  else if score ≥ 0.2 then str "low"
  else str "minimal"

/-- Loop of `_process_rerank_response`, carrying the enumeration index
`rank_idx`.  A missing `metadata_map` entry is skipped; an out-of-range
original index raises inside the loop and is skipped by the per-entry
`except`; an entry below the relevance threshold is skipped. -/
def processAux (cfg : RerankConfig) (original : List SearchResult)
    (metadata_map : List Nat) :
    List RerankEntry → Nat → List SearchResult
  | [], _ => []
  | e :: es, rank_idx =>
    let rest := processAux cfg original metadata_map es (rank_idx + 1)
    match metadata_map.get? e.index with
    | none => rest
    | some oi =>
      match original.get? oi with
      | none => rest
      | some orig =>
        if e.relevance_score < cfg.relevanceThreshold then rest
        else
          { orig with
            cohereScore := some e.relevance_score
            cohereRank := some (rank_idx + 1)
            originalIndex := some oi
            relevanceCategory :=
              some (relevance_category e.relevance_score) } :: rest

/-- `AdvancedCohereReranker._process_rerank_response` (the constant
`cohere_model` tag and the wall-clock `rerank_timestamp` are not
modeled). -/
def process_rerank_response (cfg : RerankConfig)
    (original : List SearchResult) (metadata_map : List Nat)
    (resp : List RerankEntry) : List SearchResult :=
  processAux cfg original metadata_map resp 0

/-- The decay chain of the reranker's `_calculate_recency_score` as a
function of the parsed age in days (constants differ from the agent's
chain: 0.5 / 0.3 at the 90- and 365-day breakpoints). -/
def recency_step (daysAgo : Int) : ℚ :=
  if daysAgo ≤ 1 then 1
  else if daysAgo ≤ 7 then 0.9
  else if daysAgo ≤ 30 then 0.7
  else if daysAgo ≤ 90 then 0.5
  else if daysAgo ≤ 365 then 0.3
  else 0.1

/-- The reranker's `_calculate_recency_score`: 0.1 on a missing or
unparseable date, else the decay chain. -/
def calculate_recency_score (m : Metadata) : ℚ :=
  if m.publishedAt = [] then 0.1
  else
    match m.publishedDaysAgo with
    | none => 0.1
    | some d => recency_step d

/-- `AdvancedCohereReranker._extract_days_ago`: 999 on a missing or
unparseable date. -/
def extract_days_ago (m : Metadata) : Int :=
  if m.publishedAt = [] then 999
  else
    match m.publishedDaysAgo with
    | none => 999
    | some d => d

/-- Per-result body of `_calculate_hybrid_scores`: 70% Cohere relevance +
30% recency, a 0.1 boost above 0.8 relevance, a 0.05 boost within 7
days. -/
def calculate_hybrid_scores_one (r : SearchResult) : SearchResult :=
  let cohere := r.cohereScore.getD 0
  let recency := calculate_recency_score r.metadata
  let days_ago := extract_days_ago r.metadata
  let f1 := cohere * 0.7 + recency * 0.3
  let f2 := if cohere > 0.8 then f1 + 0.1 else f1
  let f3 := if days_ago ≤ 7 then f2 + 0.05 else f2
  { r with
    daysAgo := some days_ago
    recencyScore := some recency
    finalScore := some f3 }

/-- `AdvancedCohereReranker._calculate_hybrid_scores`. -/
def calculate_hybrid_scores (results : List SearchResult) :
    List SearchResult :=
  results.map calculate_hybrid_scores_one

/-- The final-ranking sort key: `x.get('final_score', 0)`. -/
def final_key (r : SearchResult) : ℚ :=
  r.finalScore.getD 0

/-- Per-result body of `_fallback_recency_sort`: attach the recency score
as both `recency_score` and `final_score`. -/
def fallback_attach (r : SearchResult) : SearchResult :=
  let recency := calculate_recency_score r.metadata
  { r with recencyScore := some recency, finalScore := some recency }

/-- `AdvancedCohereReranker._fallback_recency_sort`: stable descending
sort of the inputs by recency score. -/
def fallback_recency_sort (results : List SearchResult) :
    List SearchResult :=
  sortDesc final_key (results.map fallback_attach)

/-- One stored `RerankingMetrics` record (`execution_time` is wall clock
and not modeled). -/
structure RerankingMetrics where
  query : List Char
  originalCount : Nat
  rerankedCount : Nat
  avgRelevanceScore : ℚ
  modelUsed : List Char
  success : Bool
  error : Option (List Char) := none
deriving DecidableEq, Repr

/-- `AdvancedCohereReranker._store_metrics`: append the new record, then
keep only the last 1000 records when the history exceeds 1000. -/
def store_metrics (cfg : RerankConfig) (hist : List RerankingMetrics)
    (query : List Char) (originalCount rerankedCount : Nat)
    (results : List SearchResult) (success : Bool)
    (error : Option (List Char)) : List RerankingMetrics :=
  let avg : ℚ :=
    if results ≠ [] ∧ success then
      (results.map (fun r => r.cohereScore.getD 0)).sum / results.length
    else 0
  let m : RerankingMetrics :=
    ⟨query.take 100, originalCount, rerankedCount, avg, cfg.model, success,
      error⟩
  let hist' := hist ++ [m]
  if 1000 < hist'.length then hist'.drop (hist'.length - 1000) else hist'

/-- Outcome of one attempted call to the external Cohere rerank service:
a response, a retryable `CohereAPIError`, or any other exception. -/
inductive CohereCallOutcome
  | ok (entries : List RerankEntry)
  | apiError (msg : List Char)
  | otherError (msg : List Char)
deriving DecidableEq, Repr

/-- The Cohere client as an oracle: the outcome of the call made on a
given attempt number, with the enhanced query, prepared documents and
`top_n` that the code passes to `self.client.rerank`. -/
def CohereOracle : Type :=
  Nat → List Char → List (List Char) → Nat → CohereCallOutcome

/-- The retry loop body of `rerank` (line 627: `for attempt in
range(max_retries)`).  A `CohereAPIError` retries until attempts are
exhausted; any other exception breaks out immediately; both paths then
store failure metrics and fall back to the recency sort. -/
def rerank_loop (cfg : RerankConfig) (api : CohereOracle)
    (query : List Char) (results : List SearchResult) (top_k : Nat)
    (hist : List RerankingMetrics) (attempt : Nat) :
    List SearchResult × List RerankingMetrics :=
  let prep := prepare_documents_for_reranking cfg results
  if prep.1 = [] then (results.take top_k, hist)
  else
    match api attempt (enhance_query_for_hyperliquid query) prep.1
        (min top_k prep.1.length) with
    | .ok entries =>
      let cohere_results := process_rerank_response cfg results prep.2 entries
      let scored := calculate_hybrid_scores cohere_results
      let final := (sortDesc final_key scored).take top_k
      (final,
        store_metrics cfg hist query results.length final.length final
          true none)
    | .apiError e =>
      if attempt + 1 < cfg.maxRetries then
        rerank_loop cfg api query results top_k hist (attempt + 1)
      else
        ((fallback_recency_sort results).take top_k,
          store_metrics cfg hist query results.length 0 [] false (some e))
    | .otherError e =>
      ((fallback_recency_sort results).take top_k,
        store_metrics cfg hist query results.length 0 [] false (some e))
termination_by cfg.maxRetries - attempt
decreasing_by
  rename_i hlt
  omega

/-- `AdvancedCohereReranker.rerank` (the second, overriding definition at
line 610), returning the result list and the updated metrics history.
With `max_retries = 0` the Python `for` loop body never runs and the
method goes straight to the fallback with `last_exception = None`. -/
def rerank (cfg : RerankConfig) (api : CohereOracle)
    (hist : List RerankingMetrics) (query : List Char)
    (results : List SearchResult) (top_k : Nat) :
    List SearchResult × List RerankingMetrics :=
  if results = [] then ([], hist)
  else if pyStrip query = [] then (results.take top_k, hist)
  else if cfg.maxRetries = 0 then
    ((fallback_recency_sort results).take top_k,
      store_metrics cfg hist query results.length 0 [] false
        (some (str "None")))
  else rerank_loop cfg api query results top_k hist 0

end Reranker

/-! ### Deduplication lemmas -/

namespace VectorStore

theorem dedupAux_sublist (seen : List (List Char))
    (l : List SearchResult) : (dedupAux seen l).Sublist l := by
  induction l generalizing seen with
  | nil => simp [dedupAux]
  | cons r rs ih =>
    simp only [dedupAux]
    split
    · exact (ih seen).cons r
    · exact (ih (r.id :: seen)).cons₂ r

theorem dedupAux_id_not_seen (seen : List (List Char))
    (l : List SearchResult) : ∀ r ∈ dedupAux seen l, r.id ∉ seen := by
  induction l generalizing seen with
  | nil => simp [dedupAux]
  | cons r rs ih =>
    simp only [dedupAux]
    split
    · exact ih seen
    · rename_i hns
      intro x hx
      rcases List.mem_cons.mp hx with hx | hx
      · exact hx ▸ hns
      · intro hc
        exact ih (r.id :: seen) x hx (List.mem_cons_of_mem _ hc)

theorem dedupAux_ids_nodup (seen : List (List Char))
    (l : List SearchResult) :
    ((dedupAux seen l).map SearchResult.id).Nodup := by
  induction l generalizing seen with
  | nil => simp [dedupAux]
  | cons r rs ih =>
    simp only [dedupAux]
    split
    · exact ih seen
    · simp only [List.map_cons, List.nodup_cons]
      refine ⟨?_, ih (r.id :: seen)⟩
      intro hmem
      rcases List.mem_map.mp hmem with ⟨x, hx, hid⟩
      exact dedupAux_id_not_seen _ _ x hx (hid ▸ List.mem_cons_self _ _)

theorem dedupAux_covers (seen : List (List Char)) (l : List SearchResult) :
    ∀ r ∈ l, r.id ∉ seen → ∃ r' ∈ dedupAux seen l, r'.id = r.id := by
  induction l generalizing seen with
  | nil => simp
  | cons x xs ih =>
    intro r hr hns
    simp only [dedupAux]
    rcases List.mem_cons.mp hr with hr | hr
    · subst hr
      split
      · rename_i hseen; exact absurd hseen hns
      · exact ⟨r, List.mem_cons_self _ _, rfl⟩
    · split
      · exact ih seen r hr hns
      · by_cases hxy : r.id = x.id
        · exact ⟨x, List.mem_cons_self _ _, hxy.symm⟩
        · rcases ih (x.id :: seen) r hr (by simp [hns, hxy]) with ⟨r', hr', hid⟩
          exact ⟨r', List.mem_cons_of_mem _ hr', hid⟩

theorem dedupAux_first_occ (seen : List (List Char)) :
    ∀ (l₁ l₂ : List SearchResult) (r : SearchResult),
      (∀ r' ∈ l₁, r'.id ≠ r.id) → r.id ∉ seen →
      r ∈ dedupAux seen (l₁ ++ r :: l₂) := by
  intro l₁
  induction l₁ generalizing seen with
  | nil =>
    intro l₂ r _ hns
    simp only [List.nil_append, dedupAux]
    split
    · rename_i h; exact absurd h hns
    · exact List.mem_cons_self _ _
  | cons x xs ih =>
    intro l₂ r hne hns
    simp only [List.cons_append, dedupAux]
    split
    · exact ih seen l₂ r (fun r' h => hne r' (List.mem_cons_of_mem _ h)) hns
    · refine List.mem_cons_of_mem _
        (ih (x.id :: seen) l₂ r
          (fun r' h => hne r' (List.mem_cons_of_mem _ h)) ?_)
      simp only [List.mem_cons]
      push_neg
      exact ⟨fun hc => hne x (List.mem_cons_self _ _) hc.symm, hns⟩

theorem dedupAux_idem (seen : List (List Char)) (l : List SearchResult) :
    dedupAux seen (dedupAux seen l) = dedupAux seen l := by
  induction l generalizing seen with
  | nil => simp [dedupAux]
  | cons r rs ih =>
    simp only [dedupAux]
    split
    · exact ih seen
    · rename_i hns
      simp only [dedupAux, if_neg hns]
      rw [ih (r.id :: seen)]

end VectorStore

/-- Modelled from the spec: the canonical identity key the spec prescribes
for deduplication — "the document's `url` when non-empty; otherwise its
`id`" — stated for comparison with the key the code actually uses. -/
def spec_canonical_key (r : SearchResult) : List Char :=
  if r.metadata.url ≠ [] then r.metadata.url else r.id

def c2A : SearchResult :=
  { id := str "a", metadata := { url := str "http://x" } }

def c2B : SearchResult :=
  { id := str "b", metadata := { url := str "http://x" } }

/-- Claim C2, refuted: two hits sharing a non-empty `url` but with
different `id`s have the same spec-prescribed canonical key, yet the later
one is **not** dropped by `_deduplicate_results` — the code keys on `id`
alone, never on `url`. -/
theorem C2_counterexample :
    spec_canonical_key c2B = spec_canonical_key c2A ∧ c2B ≠ c2A ∧
      c2B ∈ VectorStore.deduplicate_results [c2A, c2B] := by
  decide

/-- Claim C2, amended: deduplication keys on the hit's `id` alone (`url`
is never consulted): the output is a subsequence of the input (first-seen
order preserved), no two output hits share an `id`, every input `id` is
represented, and for each `id` it is exactly the first hit bearing it that
is kept. -/
theorem C2_dedupe_by_id (l : List SearchResult) :
    (VectorStore.deduplicate_results l).Sublist l ∧
    ((VectorStore.deduplicate_results l).map SearchResult.id).Nodup ∧
    (∀ r ∈ l, ∃ r' ∈ VectorStore.deduplicate_results l, r'.id = r.id) ∧
    (∀ (l₁ l₂ : List SearchResult) (r : SearchResult),
      l = l₁ ++ r :: l₂ → (∀ r' ∈ l₁, r'.id ≠ r.id) →
      r ∈ VectorStore.deduplicate_results l) := by
  refine ⟨VectorStore.dedupAux_sublist [] l,
    VectorStore.dedupAux_ids_nodup [] l, ?_, ?_⟩
  · intro r hr
    exact VectorStore.dedupAux_covers [] l r hr (by simp)
  · intro l₁ l₂ r hsplit hne
    subst hsplit
    exact VectorStore.dedupAux_first_occ [] l₁ l₂ r hne (by simp)

/-- Witness for `C2_dedupe_by_id` at a concrete input: on `[c2A, c2B]`
both hits survive (distinct `id`s) and `c2A`, the first occurrence of its
`id`, is kept. -/
theorem C2_dedupe_by_id_witness :
    ((VectorStore.deduplicate_results [c2A, c2B]).map
      SearchResult.id).Nodup ∧
      c2A ∈ VectorStore.deduplicate_results [c2A, c2B] :=
  ⟨(C2_dedupe_by_id [c2A, c2B]).2.1,
    (C2_dedupe_by_id [c2A, c2B]).2.2.2 [] [c2B] c2A rfl (by simp)⟩

/-- Claim C6: deduplication is idempotent — deduplicating an
already-deduplicated sequence returns it unchanged. -/
theorem C6_dedupe_idempotent (l : List SearchResult) :
    VectorStore.deduplicate_results (VectorStore.deduplicate_results l) =
      VectorStore.deduplicate_results l :=
  VectorStore.dedupAux_idem [] l

/-! ### Claim C7: recency decay is monotonically non-increasing -/

/-- Claim C7: both recency decay chains (the agent's with plateau scores
1.0/0.9/0.7/0.4/0.2/0.1 and the reranker's with 1.0/0.9/0.7/0.5/0.3/0.1)
are monotonically non-increasing functions of the age in days. -/
theorem C7_recency_monotone (d1 d2 : Int) (h : d1 < d2) :
    Agent.recency_step d2 ≤ Agent.recency_step d1 ∧
      Reranker.recency_step d2 ≤ Reranker.recency_step d1 := by
  unfold Agent.recency_step Reranker.recency_step
  constructor <;> (split_ifs <;> first | (exfalso; omega) | norm_num)

/-- Witness for `C7_recency_monotone` at ages 5 and 100 days. -/
theorem C7_recency_monotone_witness :
    Agent.recency_step 100 ≤ Agent.recency_step 5 ∧
      Reranker.recency_step 100 ≤ Reranker.recency_step 5 :=
  C7_recency_monotone 5 100 (by norm_num)

/-! ### Claim C9: importance score stays in the unit interval -/

theorem get_source_tier_bounds (source : List Char) :
    (0.1 : ℚ) ≤ (Agent.get_source_tier source).baseScore ∧
      (Agent.get_source_tier source).baseScore ≤ 0.9 := by
  unfold Agent.get_source_tier
  cases hfind : Agent.source_tiers.find?
      (fun t => t.sources.any (fun s => pyContains (pyLower source) s)) with
  | none => norm_num
  | some t =>
    have ht := List.mem_of_find?_eq_some hfind
    fin_cases ht <;> norm_num

theorem keyword_score_bounds (text : List Char) (ks : List (List Char))
    (w : ℚ) (hw : 0 ≤ w) :
    0 ≤ Agent.keyword_score text ks w ∧
      Agent.keyword_score text ks w ≤ w * 3 := by
  unfold Agent.keyword_score
  refine ⟨le_min (by positivity) (by positivity), min_le_right _ _⟩

theorem channel_bonus_bounds (c : List Char) :
    0 ≤ Agent.channel_bonus c ∧ Agent.channel_bonus c ≤ 0.2 := by
  unfold Agent.channel_bonus
  split_ifs <;> norm_num

/-- Claim C9: for every document, the importance score lies in `[0, 1]`:
the accumulated score is at least `0.3 + 0.1·0.4 − 0.05 = 0.29 > 0` in the
worst case, and the final `min(·, 1.0)` clamps it above. -/
theorem C9_importance_in_unit_interval (r : SearchResult) :
    0 ≤ Agent.calculate_importance_score r ∧
      Agent.calculate_importance_score r ≤ 1 := by
  unfold Agent.calculate_importance_score
  refine ⟨le_min ?_ (by norm_num), min_le_right _ _⟩
  have h1 := get_source_tier_bounds r.metadata.sourceEntityName
  have h2 := keyword_score_bounds (pyLower r.text) Agent.high_impact_keywords
    0.08 (by norm_num)
  have h3 := keyword_score_bounds (pyLower r.text) Agent.financial_keywords
    0.05 (by norm_num)
  have h4 := keyword_score_bounds (pyLower r.text) Agent.technical_keywords
    0.03 (by norm_num)
  have h5 := channel_bonus_bounds (pyLower r.metadata.channelType)
  unfold Agent.importance_raw
  split_ifs <;> linarith [h1.1, h2.1, h3.1, h4.1, h5.1]

/-! ### Claim C10: the metrics history is bounded by 1000 entries -/

theorem append_trim_le_1000 {α : Type} (h : List α) (m : α) :
    (if 1000 < (h ++ [m]).length then
        (h ++ [m]).drop ((h ++ [m]).length - 1000)
      else h ++ [m]).length ≤ 1000 := by
  split_ifs with hlen
  · simp only [List.length_drop]
    omega
  · simp only [List.length_append, List.length_cons, List.length_nil]
      at hlen ⊢
    omega

theorem store_metrics_le_1000 (cfg : Reranker.RerankConfig)
    (hist : List Reranker.RerankingMetrics) (query : List Char)
    (oc rc : Nat) (rs : List SearchResult) (s : Bool)
    (e : Option (List Char)) :
    (Reranker.store_metrics cfg hist query oc rc rs s e).length ≤ 1000 := by
  unfold Reranker.store_metrics
  exact append_trim_le_1000 _ _

theorem rerank_loop_hist_le (cfg : Reranker.RerankConfig)
    (api : Reranker.CohereOracle) (query : List Char)
    (results : List SearchResult) (top_k : Nat) :
    ∀ (n attempt : Nat), cfg.maxRetries - attempt ≤ n →
      ∀ hist : List Reranker.RerankingMetrics, hist.length ≤ 1000 →
        ((Reranker.rerank_loop cfg api query results top_k hist
            attempt).2).length ≤ 1000 := by
  intro n
  induction n with
  | zero =>
    intro attempt hle hist hh
    rw [Reranker.rerank_loop]
    split
    · exact hh
    · split
      · exact store_metrics_le_1000 _ _ _ _ _ _ _ _
      · split
        · rename_i hlt
          exact absurd hlt (by omega)
        · exact store_metrics_le_1000 _ _ _ _ _ _ _ _
      · exact store_metrics_le_1000 _ _ _ _ _ _ _ _
  | succ n ih =>
    intro attempt hle hist hh
    rw [Reranker.rerank_loop]
    split
    · exact hh
    · split
      · exact store_metrics_le_1000 _ _ _ _ _ _ _ _
      · split
        · exact ih (attempt + 1) (by omega) hist hh
        · exact store_metrics_le_1000 _ _ _ _ _ _ _ _
      · exact store_metrics_le_1000 _ _ _ _ _ _ _ _

/-- Claim C10: if the metrics history holds at most 1000 entries before a
`rerank` call, it still holds at most 1000 entries afterwards — on every
path (success, retry exhaustion, early returns); moreover the appending
operation `_store_metrics` itself never leaves more than 1000 entries,
whatever the prior state. -/
theorem C10_metrics_history_bounded (cfg : Reranker.RerankConfig)
    (api : Reranker.CohereOracle) (hist : List Reranker.RerankingMetrics)
    (query : List Char) (results : List SearchResult) (top_k : Nat)
    (h : hist.length ≤ 1000) :
    ((Reranker.rerank cfg api hist query results top_k).2).length ≤ 1000 ∧
    (∀ (q : List Char) (oc rc : Nat) (rs : List SearchResult) (s : Bool)
        (e : Option (List Char)),
      (Reranker.store_metrics cfg hist q oc rc rs s e).length ≤ 1000) := by
  constructor
  · unfold Reranker.rerank
    split_ifs
    · simpa using h
    · simpa using h
    · exact store_metrics_le_1000 _ _ _ _ _ _ _ _
    · exact rerank_loop_hist_le cfg api query results top_k
        cfg.maxRetries 0 (by omega) hist h
  · intro q oc rc rs s e
    exact store_metrics_le_1000 _ _ _ _ _ _ _ _

/-- Witness for `C10_metrics_history_bounded` on an empty history. -/
theorem C10_metrics_history_bounded_witness :
    ((Reranker.rerank {} (fun _ _ _ _ => .apiError []) [] (str "q") []
        5).2).length ≤ 1000 :=
  (C10_metrics_history_bounded {} (fun _ _ _ _ => .apiError []) []
    (str "q") [] 5 (by simp)).1

/-! ### Claim C3: `top_k` validation precedes all retrieval -/

/-- Claim C3: for every query and every `top_k` outside `[1, 50]`, the
search is rejected by the validation guard with no external call made:
`search_mentions` issues no vector-store or reranker call (empty trace)
and returns the caught validation `ValueError` as its error outcome, and
the HTTP handler `search_hyperliquid` never reaches the CLI subprocess —
when the agent is up and the query non-empty it rejects with exactly
HTTP 400 and the `top_k` message. -/
theorem C3_topk_validated_before_io (env : Agent.SearchEnv)
    (w : Agent.ScoringWeights) (ready : Bool) (query : List Char)
    (top_k : Int) (h : top_k ≤ 0 ∨ top_k > 50) :
    (Agent.search_mentions env w query top_k).2 = [] ∧
    ((Agent.search_mentions env w query top_k).1 =
        .searchError (str "Query cannot be empty") ∨
      (Agent.search_mentions env w query top_k).1 =
        .searchError (str "top_k must be between 1 and 50")) ∧
    (∀ (q : List Char) (k : Int),
      Api.search_hyperliquid ready query top_k ≠ .runsCli q k) ∧
    (ready = true → pyStrip query ≠ [] →
      Api.search_hyperliquid ready query top_k =
        .httpError 400 (str "top_k must be between 1 and 50")) := by
  unfold Agent.search_mentions Api.search_hyperliquid
  by_cases hq : pyStrip query = [] <;> by_cases hr : ready = true <;>
    simp [hq, hr, h]

def c3Env : Agent.SearchEnv :=
  ⟨fun _ _ => .ok [], fun _ rs _ => rs⟩

/-- Witness for `C3_topk_validated_before_io` at `top_k = 0` with a
non-empty query and a live agent. -/
theorem C3_topk_validated_before_io_witness :
    (Agent.search_mentions c3Env {} (str "hello") 0).2 = [] ∧
      Api.search_hyperliquid true (str "hello") 0 =
        .httpError 400 (str "top_k must be between 1 and 50") :=
  ⟨(C3_topk_validated_before_io c3Env {} true (str "hello") 0
      (Or.inl (by norm_num))).1,
    (C3_topk_validated_before_io c3Env {} true (str "hello") 0
      (Or.inl (by norm_num))).2.2.2 rfl (by decide)⟩

/-! ### Claim C5: query expansion -/

theorem pyReplace_ne_nil (q pat rep : List Char) (hq : q ≠ [])
    (hrep : rep ≠ []) : pyReplace q pat rep ≠ [] := by
  match q with
  | [] => exact absurd rfl hq
  | c :: rest =>
    show pyReplaceFuel pat rep (rest.length + 1) (c :: rest) ≠ []
    simp only [pyReplaceFuel]
    split
    · simp [hrep]
    · simp

theorem expansion_inner_mem (q t : List Char) (alts : List (List Char)) :
    ∀ (acc : List (List Char)) (v : List Char),
      v ∈ alts.foldl
        (fun acc2 alt =>
          if pyReplace q t alt ≠ q then acc2 ++ [pyReplace q t alt]
          else acc2) acc →
      v ∈ acc ∨ ∃ alt ∈ alts, v = pyReplace q t alt ∧ v ≠ q := by
  induction alts with
  | nil => intro acc v h; exact Or.inl h
  | cons a as ih =>
    intro acc v h
    simp only [List.foldl_cons] at h
    rcases ih _ v h with hacc | ⟨alt, hmem, heq, hne⟩
    · by_cases hg : pyReplace q t a ≠ q
      · rw [if_pos hg] at hacc
        rcases List.mem_append.mp hacc with h1 | h2
        · exact Or.inl h1
        · right
          refine ⟨a, List.mem_cons_self _ _, List.mem_singleton.mp h2, ?_⟩
          rw [List.mem_singleton.mp h2]
          exact hg
      · rw [if_neg hg] at hacc
        exact Or.inl hacc
    · exact Or.inr ⟨alt, List.mem_cons_of_mem _ hmem, heq, hne⟩

theorem expansion_outer_mem (q : List Char) :
    ∀ (reps : List (List Char × List (List Char)))
      (acc : List (List Char)) (v : List Char),
      v ∈ reps.foldl
        (fun acc p =>
          if pyContains (pyLower q) p.1 then
            (p.2.take 2).foldl
              (fun acc2 alt =>
                if pyReplace q p.1 alt ≠ q then acc2 ++ [pyReplace q p.1 alt]
                else acc2) acc
          else acc) acc →
      v ∈ acc ∨
        ∃ p ∈ reps, ∃ alt ∈ p.2.take 2, v = pyReplace q p.1 alt ∧ v ≠ q := by
  intro reps
  induction reps with
  | nil => intro acc v h; exact Or.inl h
  | cons p ps ih =>
    intro acc v h
    simp only [List.foldl_cons] at h
    rcases ih _ v h with hacc | ⟨p', hp', alt, halt, heq, hne⟩
    · by_cases hc : pyContains (pyLower q) p.1
      · rw [if_pos hc] at hacc
        rcases expansion_inner_mem q p.1 (p.2.take 2) acc v hacc with
          h1 | ⟨alt, halt, heq, hne⟩
        · exact Or.inl h1
        · exact Or.inr ⟨p, List.mem_cons_self _ _, alt, halt, heq, hne⟩
      · rw [if_neg hc] at hacc
        exact Or.inl hacc
    · exact Or.inr ⟨p', List.mem_cons_of_mem _ hp', alt, halt, heq, hne⟩

theorem replacements_alts_ne_nil :
    ∀ p ∈ Agent.replacements, ∀ a ∈ p.2, a ≠ ([] : List Char) := by
  decide

/-- Every member of the expansion list is one of: a synonym substitution
that changed the query, the `HyperLiquid`-prefixed variant, or the
HYPE-token substitution (which fires only when the lowercased query
mentions token/price/trading/volume). -/
theorem generate_related_queries_mem (q v : List Char)
    (h : v ∈ Agent.generate_related_queries q) :
    (∃ p ∈ Agent.replacements, ∃ alt ∈ p.2.take 2,
      v = pyReplace q p.1 alt ∧ v ≠ q) ∨
    (v = str "HyperLiquid " ++ q) ∨
    (v = pyReplace q (str "HyperLiquid") (str "HYPE token") ∧
      ([str "token", str "price", str "trading", str "volume"].any
        (fun t => pyContains (pyLower q) t)) = true) := by
  unfold Agent.generate_related_queries at h
  have h' := List.mem_of_mem_take h
  by_cases htok : ([str "token", str "price", str "trading",
      str "volume"].any (fun t => pyContains (pyLower q) t)) = true
  · rw [if_pos htok] at h'
    rcases List.mem_append.mp h' with h'' | h''
    · by_cases hhl : pyContains (pyLower q) (str "hyperliquid")
      · rw [if_neg (by simpa using hhl)] at h''
        rcases expansion_outer_mem q Agent.replacements [] v h'' with hnil | hcase
        · exact absurd hnil (List.not_mem_nil v)
        · exact Or.inl hcase
      · rw [if_pos (by simpa using hhl)] at h''
        rcases List.mem_append.mp h'' with h3 | h3
        · rcases expansion_outer_mem q Agent.replacements [] v h3 with hnil | hcase
          · exact absurd hnil (List.not_mem_nil v)
          · exact Or.inl hcase
        · exact Or.inr (Or.inl (List.mem_singleton.mp h3))
    · exact Or.inr (Or.inr ⟨List.mem_singleton.mp h'', htok⟩)
  · rw [if_neg htok] at h'
    by_cases hhl : pyContains (pyLower q) (str "hyperliquid")
    · rw [if_neg (by simpa using hhl)] at h'
      rcases expansion_outer_mem q Agent.replacements [] v h' with hnil | hcase
      · exact absurd hnil (List.not_mem_nil v)
      · exact Or.inl hcase
    · rw [if_pos (by simpa using hhl)] at h'
      rcases List.mem_append.mp h' with h3 | h3
      · rcases expansion_outer_mem q Agent.replacements [] v h3 with hnil | hcase
        · exact absurd hnil (List.not_mem_nil v)
        · exact Or.inl hcase
      · exact Or.inr (Or.inl (List.mem_singleton.mp h3))

/-- Claim C5, refuted: for the query `"price"`, the expansion list is
`["value", "cost", "HyperLiquid price", "price"]` — the HYPE-token
substitution is appended without the `!= original_query` guard, so the
original query itself appears verbatim among the variants. -/
theorem C5_counterexample :
    str "price" ∈ Agent.generate_related_queries (str "price") := by
  decide


/-! ### Claim C4: final ordering and tie-breaking -/

def c4A : SearchResult :=
  { id := str "a", text := [],
    metadata := { publishedAt := str "2025-10-10", publishedDaysAgo := some 0 },
    cohereScore := some 0.06 }

def c4B : SearchResult :=
  { id := str "b", text := [],
    metadata := { publishedAt := str "2024-01-01", publishedDaysAgo := some 400 },
    cohereScore := some 0.6 }

/-- Claim C4, refuted: `c4A` (relevance 0.06, same-day) and `c4B`
(relevance 0.6, 400 days old) both get hybrid score
`0.5·relevance + 0.3·recency + 0.2·0.29 = 97/250`, yet the final ordering
keeps the lower-relevance `c4A` first: the sort keys on `hybrid_score`
alone, so equal hybrid scores keep input order instead of ranking the
higher `relevance_score` first. -/
theorem C4_counterexample :
    (Agent.rank_results {} [c4A, c4B]).map SearchResult.id =
        [str "a", str "b"] ∧
      Agent.hybrid_key (Agent.enhance_result_with_scores {} c4A) =
        Agent.hybrid_key (Agent.enhance_result_with_scores {} c4B) ∧
      (Agent.enhance_result_with_scores {} c4A).cohereScore.getD 0 <
        (Agent.enhance_result_with_scores {} c4B).cohereScore.getD 0 := by
  with_unfolding_all decide

/-- Claim C4, amended: the final output ordering is a stable descending
sort on `hybrid_score` alone — the output is a permutation of the enhanced
results, non-increasing in `hybrid_score`, and documents with equal
`hybrid_score` keep their original retrieval order (`relevance_score` is
not used as a tie-break). -/
theorem C4_ordering_stable_on_hybrid (w : Agent.ScoringWeights)
    (l : List SearchResult) (q : ℚ) :
    (Agent.rank_results w l).Perm
      (l.map (Agent.enhance_result_with_scores w)) ∧
    (Agent.rank_results w l).Pairwise
      (fun a b => Agent.hybrid_key b ≤ Agent.hybrid_key a) ∧
    (Agent.rank_results w l).filter
        (fun r => decide (Agent.hybrid_key r = q)) =
      (l.map (Agent.enhance_result_with_scores w)).filter
        (fun r => decide (Agent.hybrid_key r = q)) :=
  ⟨sortDesc_perm _ _, sortDesc_sorted _ _, sortDesc_filter _ _ _⟩

/-! ### Claim C1: rerank behaviour on total service failure -/

def c1cfg : Reranker.RerankConfig := {}

def c1api : Reranker.CohereOracle :=
  fun _ _ _ _ => .apiError (str "service down")

def c1A : SearchResult :=
  { id := str "a", text := str "alpha alpha alpha",
    metadata := { publishedAt := str "2020-01-01", publishedDaysAgo := some 400 } }

def c1B : SearchResult :=
  { id := str "b", text := str "bravo bravo bravo",
    metadata := { publishedAt := str "2025-10-10", publishedDaysAgo := some 0 } }

/-- Claim C1, refuted: with every attempt failing, `rerank` on
`[c1A, c1B]` (old document first) returns the documents in recency order
`[c1B, c1A]` — not the first `top_k` inputs in original input order — and
does not set `relevance_score` to 0 (the `cohere_score` key is not
assigned at all on the fallback path). -/
theorem C1_counterexample :
    ((Reranker.rerank c1cfg c1api [] (str "hello") [c1A, c1B] 2).1).map
        SearchResult.id = [str "b", str "a"] ∧
      ¬ (((Reranker.rerank c1cfg c1api [] (str "hello")
            [c1A, c1B] 2).1).map SearchResult.id =
          [c1A, c1B].map SearchResult.id ∧
        ∀ r ∈ (Reranker.rerank c1cfg c1api [] (str "hello")
            [c1A, c1B] 2).1, r.cohereScore = some 0) := by
  with_unfolding_all decide

theorem rerank_loop_all_fail (cfg : Reranker.RerankConfig)
    (api : Reranker.CohereOracle) (query : List Char)
    (results : List SearchResult) (top_k : Nat)
    (hfail : ∀ n eq docs tn, ∃ msg, api n eq docs tn =
      Reranker.CohereCallOutcome.apiError msg)
    (hdocs : (Reranker.prepare_documents_for_reranking cfg results).1 ≠ []) :
    ∀ (n attempt : Nat), cfg.maxRetries - attempt ≤ n →
      ∀ hist, (Reranker.rerank_loop cfg api query results top_k hist
          attempt).1 =
        (Reranker.fallback_recency_sort results).take top_k := by
  intro n
  induction n with
  | zero =>
    intro attempt hle hist
    rw [Reranker.rerank_loop]
    split
    · rename_i hnil
      exact absurd hnil hdocs
    · split
      · rename_i entries heq
        obtain ⟨msg, hm⟩ := hfail attempt _ _ _
        rw [hm] at heq
        exact absurd heq (by simp)
      · split
        · rename_i hlt
          exact absurd hlt (by omega)
        · rfl
      · rfl
  | succ n ih =>
    intro attempt hle hist
    rw [Reranker.rerank_loop]
    split
    · rename_i hnil
      exact absurd hnil hdocs
    · split
      · rename_i entries heq
        obtain ⟨msg, hm⟩ := hfail attempt _ _ _
        rw [hm] at heq
        exact absurd heq (by simp)
      · split
        · exact ih (attempt + 1) (by omega) hist
        · rfl
      · rfl

/-- Claim C1, amended: when every service attempt raises a
`CohereAPIError` (retry exhaustion) and the prepared document list is
non-empty (so the service is actually consulted), `rerank` does not raise
— but instead of the first `top_k` inputs in original order it returns
the recency-sorted fallback: `min top_k (number of inputs)` documents,
non-increasing in their recency-based `final_score`, each an input
document carrying `recency_score = final_score = its recency score`; the
`relevance_score` (`cohere_score`) field is left exactly as it was on the
input, not set to 0. -/
theorem C1_exhausted_retries_recency_fallback (cfg : Reranker.RerankConfig)
    (api : Reranker.CohereOracle) (hist : List Reranker.RerankingMetrics)
    (query : List Char) (results : List SearchResult) (top_k : Nat)
    (hfail : ∀ n eq docs tn, ∃ msg, api n eq docs tn =
      Reranker.CohereCallOutcome.apiError msg)
    (hres : ¬ results = []) (hq : ¬ pyStrip query = [])
    (hdocs : (Reranker.prepare_documents_for_reranking cfg results).1 ≠ []) :
    ((Reranker.rerank cfg api hist query results top_k).1).length =
        min top_k results.length ∧
    ((Reranker.rerank cfg api hist query results top_k).1).Pairwise
        (fun a b => Reranker.final_key b ≤ Reranker.final_key a) ∧
    ∀ r ∈ (Reranker.rerank cfg api hist query results top_k).1,
      ∃ r0 ∈ results, r = Reranker.fallback_attach r0 ∧
        r.finalScore =
          some (Reranker.calculate_recency_score r0.metadata) ∧
        r.recencyScore =
          some (Reranker.calculate_recency_score r0.metadata) ∧
        r.cohereScore = r0.cohereScore := by
  have hout : (Reranker.rerank cfg api hist query results top_k).1 =
      (Reranker.fallback_recency_sort results).take top_k := by
    unfold Reranker.rerank
    rw [if_neg hres, if_neg hq]
    by_cases hmr : cfg.maxRetries = 0
    · rw [if_pos hmr]
    · rw [if_neg hmr]
      exact rerank_loop_all_fail cfg api query results top_k hfail hdocs
        cfg.maxRetries 0 (by omega) hist
  rw [hout]
  refine ⟨?_, ?_, ?_⟩
  · rw [List.length_take, Reranker.fallback_recency_sort, sortDesc_length,
      List.length_map]
  · exact List.Pairwise.sublist (List.take_sublist _ _)
      (sortDesc_sorted Reranker.final_key _)
  · intro r hr
    have hr' := List.mem_of_mem_take hr
    rw [Reranker.fallback_recency_sort] at hr'
    have hr'' := (sortDesc_mem Reranker.final_key _).mp hr'
    rcases List.mem_map.mp hr'' with ⟨r0, hr0, rfl⟩
    exact ⟨r0, hr0, rfl, by simp [Reranker.fallback_attach],
      by simp [Reranker.fallback_attach],
      by simp [Reranker.fallback_attach]⟩

/-- Witness for `C1_exhausted_retries_recency_fallback` on the two
concrete documents, with the always-failing oracle. -/
theorem C1_exhausted_retries_recency_fallback_witness :
    ((Reranker.rerank c1cfg c1api [] (str "hello") [c1A, c1B] 2).1).length =
        min 2 [c1A, c1B].length ∧
      ((Reranker.rerank c1cfg c1api [] (str "hello")
          [c1A, c1B] 2).1).Pairwise
        (fun a b => Reranker.final_key b ≤ Reranker.final_key a) := by
  have h := C1_exhausted_retries_recency_fallback c1cfg c1api []
    (str "hello") [c1A, c1B] 2
    (fun n eq docs tn => ⟨str "service down", rfl⟩)
    (by decide) (by decide) (by decide)
  exact ⟨h.1, h.2.1⟩

/-! ### Claim C8: document representation length and truncation -/

theorem final_length_check_le (maxLen : Int) (h3 : 3 ≤ maxLen)
    (s : List Char) :
    ((Reranker.final_length_check maxLen s).length : Int) ≤ maxLen := by
  unfold Reranker.final_length_check
  split_ifs with hlen
  · unfold pySliceTo
    rw [if_pos (by omega)]
    have hdots : (str "...").length = 3 := rfl
    simp only [List.length_append, List.length_take, hdots]
    omega
  · omega

/-- Claim C8, amended: for every document (with a configured budget of at
least 3 characters) the textual representation stays within the budget;
body truncation inside the representation prefers sentence boundaries and
falls back to word boundaries, but the final whole-document length
enforcement is a raw character-level slice plus `"..."`, which can cut in
the middle of a word. -/
theorem C8_doc_context_within_budget (cfg : Reranker.RerankConfig)
    (r : SearchResult) (h3 : 3 ≤ cfg.maxDocLength) :
    ((Reranker.create_rich_document_context cfg r).length : Int) ≤
      cfg.maxDocLength := by
  unfold Reranker.create_rich_document_context
  exact final_length_check_le _ h3 _

def c8cfg : Reranker.RerankConfig := { maxDocLength := 30 }

def c8doc : SearchResult :=
  { id := str "d", text := str "aaaa bbbb cccc dddd",
    metadata := { url := str "http://zz" } }

/-- Witness for `C8_doc_context_within_budget` at the default 1000 budget
on the concrete document. -/
theorem C8_doc_context_within_budget_witness :
    ((Reranker.create_rich_document_context {} c8doc).length : Int) ≤
      (1000 : Int) :=
  C8_doc_context_within_budget {} c8doc (by norm_num)

def c8full : List Char := str "CONTENT: aaaa...\nURL: http://zz"

/-- Claim C8, refuted: on `c8doc` with a 30-character budget the joined
parts form `"CONTENT: aaaa...\nURL: http://zz"` (31 characters), and the
final length check slices it between the two non-space characters at
positions 26 and 27 — in the middle of the word `http://zz` — producing
`"CONTENT: aaaa...\nURL: http:..."`.  The representation is thus cut
mid-word, contradicting the never-cut-mid-word part of the claim. -/
theorem C8_counterexample :
    pyJoin (str "\n") (Reranker.content_parts c8cfg c8doc) = c8full ∧
      Reranker.create_rich_document_context c8cfg c8doc =
        c8full.take 27 ++ str "..." ∧
      isSpaceChar (c8full.getD 26 ' ') = false ∧
      isSpaceChar (c8full.getD 27 ' ') = false := by
  decide

/-! ### Character-count behaviour of `pyReplace`

Each replacement step of `pyReplaceFuel` consumes one occurrence of the
pattern and emits the replacement, so the number of occurrences of any
character in the output is the input count plus (replacements performed) ×
(count in replacement − count in pattern).  These lemmas drive the
pairwise-distinctness proof for the query expander: two different
substitutions move some character count in incompatible ways. -/

/-- Number of replacements `pyReplaceFuel` performs (same recursion scheme
and fuel as `pyReplaceFuel`). -/
def pyOccFuel (pat : List Char) : Nat → List Char → Nat
  | _, [] => 0
  | 0, _ => 0
  | fuel + 1, c :: rest =>
    if pat ≠ [] ∧ pat.isPrefixOf (c :: rest) then
      pyOccFuel pat fuel ((c :: rest).drop pat.length) + 1
    else
      pyOccFuel pat fuel rest

/-- Number of replacements `pyReplace s pat rep` performs. -/
def pyOcc (s pat : List Char) : Nat :=
  pyOccFuel pat s.length s

theorem count_pyReplaceFuel (c : Char) (pat rep : List Char) :
    ∀ (fuel : Nat) (s : List Char),
      ((pyReplaceFuel pat rep fuel s).count c : ℤ) =
        (s.count c : ℤ) +
          (pyOccFuel pat fuel s : ℤ) *
            ((rep.count c : ℤ) - (pat.count c : ℤ)) := by
  intro fuel
  induction fuel with
  | zero =>
    intro s
    cases s <;> simp [pyReplaceFuel, pyOccFuel]
  | succ fuel ih =>
    intro s
    cases s with
    | nil => simp [pyReplaceFuel, pyOccFuel]
    | cons x rest =>
      simp only [pyReplaceFuel, pyOccFuel]
      split
      · rename_i h
        obtain ⟨t, ht⟩ := List.isPrefixOf_iff_prefix.mp h.2
        have hdrop : (x :: rest).drop pat.length = t := by
          rw [← ht, List.drop_left]
        have hcnt : ((x :: rest).count c : ℤ) =
            (pat.count c : ℤ) + (t.count c : ℤ) := by
          rw [← ht, List.count_append]
          push_cast
          ring
        rw [List.count_append, hdrop, hcnt]
        push_cast [ih t]
        ring
      · simp only [List.count_cons]
        push_cast [ih rest]
        ring

theorem pyOccFuel_pos (pat rep : List Char) :
    ∀ (fuel : Nat) (s : List Char),
      pyReplaceFuel pat rep fuel s ≠ s → 1 ≤ pyOccFuel pat fuel s := by
  intro fuel
  induction fuel with
  | zero =>
    intro s h
    cases s <;> simp [pyReplaceFuel] at h
  | succ fuel ih =>
    intro s h
    cases s with
    | nil => simp [pyReplaceFuel] at h
    | cons x rest =>
      by_cases hcond : pat ≠ [] ∧ pat.isPrefixOf (x :: rest)
      · simp only [pyOccFuel, if_pos hcond]
        omega
      · simp only [pyReplaceFuel, if_neg hcond] at h
        simp only [pyOccFuel, if_neg hcond]
        apply ih rest
        intro hc
        exact h (by rw [hc])

theorem pyReplaceFuel_not_contains (pat rep : List Char) :
    ∀ (fuel : Nat) (s : List Char),
      pyContains s pat = false → pyReplaceFuel pat rep fuel s = s := by
  intro fuel
  induction fuel with
  | zero =>
    intro s _
    cases s <;> rfl
  | succ fuel ih =>
    intro s hs
    cases s with
    | nil => rfl
    | cons x rest =>
      simp only [pyContains, Bool.or_eq_false_iff] at hs
      rw [pyReplaceFuel, if_neg (fun hc => by simp [hs.1] at hc), ih rest hs.2]

theorem pyReplace_eq_self_of_not_contains (s pat rep : List Char)
    (h : pyContains s pat = false) : pyReplace s pat rep = s :=
  pyReplaceFuel_not_contains pat rep s.length s h

theorem pyContains_of_replace_ne (s pat rep : List Char)
    (h : pyReplace s pat rep ≠ s) : pyContains s pat = true := by
  by_contra hc
  exact h (pyReplace_eq_self_of_not_contains s pat rep
    (Bool.not_eq_true _ ▸ hc))

theorem count_pyReplace (c : Char) (s pat rep : List Char) :
    ((pyReplace s pat rep).count c : ℤ) =
      (s.count c : ℤ) +
        (pyOcc s pat : ℤ) * ((rep.count c : ℤ) - (pat.count c : ℤ)) :=
  count_pyReplaceFuel c pat rep s.length s

theorem pyOcc_pos (s pat rep : List Char) (h : pyReplace s pat rep ≠ s) :
    1 ≤ pyOcc s pat :=
  pyOccFuel_pos pat rep s.length s h

theorem pyContains_map (f : Char → Char) :
    ∀ (s pat : List Char),
      pyContains s pat = true → pyContains (s.map f) (pat.map f) = true := by
  intro s
  induction s with
  | nil =>
    intro pat h
    simp only [pyContains, List.isEmpty_iff] at h
    simp [pyContains, h]
  | cons x rest ih =>
    intro pat h
    simp only [pyContains, Bool.or_eq_true] at h
    simp only [List.map_cons, pyContains, Bool.or_eq_true]
    rcases h with h | h
    · left
      obtain ⟨t, ht⟩ := List.isPrefixOf_iff_prefix.mp h
      apply List.isPrefixOf_iff_prefix.mpr
      exact ⟨t.map f, by rw [← List.map_append, ht, List.map_cons]⟩
    · right
      exact ih pat h

/-! ### The substitution pairs of the query expander and their
count-based separation -/

/-- The 12 `(term, alternative)` substitution pairs that
`_generate_related_queries` iterates over, in iteration order (each rule
contributes its first two alternatives). -/
def synPairs : List (List Char × List Char) :=
  [ (str "influencer", str "trader"), (str "influencer", str "analyst"),
    (str "tweets", str "posts"), (str "tweets", str "mentions"),
    (str "recently", str "latest"), (str "recently", str "this week"),
    (str "vault", str "vaults"), (str "vault", str "yield farming"),
    (str "price", str "value"), (str "price", str "cost"),
    (str "volume", str "trading volume"), (str "volume", str "liquidity") ]

/-- Net effect of one substitution on the number of occurrences of the
character `c`. -/
def kdelta (p : List Char × List Char) (c : Char) : ℤ :=
  (p.2.count c : ℤ) - (p.1.count c : ℤ)

/-- `c` separates the substitutions `p1` and `p2`: one leaves the count of
`c` unchanged while the other always changes it, or they move it in
opposite directions — so no numbers of occurrences can make their outputs
agree on the count of `c`. -/
def killCondB (p1 p2 : List Char × List Char) (c : Char) : Bool :=
  (kdelta p1 c == 0 && kdelta p2 c != 0) ||
    (kdelta p2 c == 0 && kdelta p1 c != 0) ||
    decide (kdelta p1 c * kdelta p2 c < 0)

def killChars : List Char :=
  ['w', 'y', 'f', 'u', 'c', 'q', 'g', 'o', 'v', 'p', 's', ' ']

/-- Every two distinct substitution pairs are separated by some
character. -/
theorem synPairs_kill :
    ∀ p1 ∈ synPairs, ∀ p2 ∈ synPairs, p1 ≠ p2 →
      ∃ c ∈ killChars, killCondB p1 p2 c = true := by
  decide

theorem killCond_arith {d1 d2 : ℤ}
    (h : ((d1 == 0 && d2 != 0) || (d2 == 0 && d1 != 0) ||
      decide (d1 * d2 < 0)) = true) :
    ∀ k1 k2 : ℤ, 1 ≤ k1 → 1 ≤ k2 → k1 * d1 ≠ k2 * d2 := by
  intro k1 k2 hk1 hk2 heq
  simp only [Bool.or_eq_true, Bool.and_eq_true, beq_iff_eq, bne_iff_ne,
    ne_eq, decide_eq_true_eq] at h
  rcases h with (⟨h0, hne⟩ | ⟨h0, hne⟩) | hneg
  · rw [h0, mul_zero] at heq
    rcases mul_eq_zero.mp heq.symm with hk | hd
    · omega
    · exact hne hd
  · rw [h0, mul_zero] at heq
    rcases mul_eq_zero.mp heq with hk | hd
    · omega
    · exact hne hd
  · rcases mul_neg_iff.mp hneg with ⟨hp, hn⟩ | ⟨hn, hp⟩
    · have ha : 0 < k1 * d1 := mul_pos (by omega) hp
      have hb : k2 * d2 < 0 := mul_neg_of_pos_of_neg (by omega) hn
      linarith
    · have ha : k1 * d1 < 0 := mul_neg_of_pos_of_neg (by omega) hn
      have hb : 0 < k2 * d2 := mul_pos (by omega) hp
      linarith

/-- Two different substitution pairs applied to the same query, each
actually changing it, give different results: the separating character's
count comes out different. -/
theorem syn_pair_replace_ne (q : List Char) (p1 p2 : List Char × List Char)
    (h1 : p1 ∈ synPairs) (h2 : p2 ∈ synPairs) (hne : p1 ≠ p2)
    (g1 : pyReplace q p1.1 p1.2 ≠ q) (g2 : pyReplace q p2.1 p2.2 ≠ q) :
    pyReplace q p1.1 p1.2 ≠ pyReplace q p2.1 p2.2 := by
  obtain ⟨c, -, hkill⟩ := synPairs_kill p1 h1 p2 h2 hne
  intro heq
  have e1 := count_pyReplace c q p1.1 p1.2
  have e2 := count_pyReplace c q p2.1 p2.2
  rw [heq] at e1
  have hkill' : ((kdelta p1 c == 0 && kdelta p2 c != 0) ||
      (kdelta p2 c == 0 && kdelta p1 c != 0) ||
      decide (kdelta p1 c * kdelta p2 c < 0)) = true := by
    simpa [killCondB] using hkill
  refine killCond_arith hkill'
    (pyOcc q p1.1 : ℤ) (pyOcc q p2.1 : ℤ)
    (by exact_mod_cast pyOcc_pos q p1.1 p1.2 g1)
    (by exact_mod_cast pyOcc_pos q p2.1 p2.2 g2) ?_
  simp only [kdelta]
  linarith [e1, e2]

/-! ### Flattened form of the expansion fold -/

/-- A substitution pair fires on `q`: its term occurs in the lowercased
query and the replacement actually changes the query. -/
def synCond (q : List Char) (p : List Char × List Char) : Bool :=
  pyContains (pyLower q) p.1 && decide (pyReplace q p.1 p.2 ≠ q)

/-- The synonym-substitution variants of `_generate_related_queries`, as
the firing pairs applied in iteration order. -/
def synList (q : List Char) : List (List Char) :=
  (synPairs.filter (synCond q)).map (fun p => pyReplace q p.1 p.2)

theorem expansion_inner_fold_eq (q t : List Char) (alts : List (List Char)) :
    ∀ acc : List (List Char),
      alts.foldl (fun acc2 alt =>
        if pyReplace q t alt ≠ q then acc2 ++ [pyReplace q t alt]
        else acc2) acc =
      acc ++ (alts.filter (fun alt => decide (pyReplace q t alt ≠ q))).map
        (fun alt => pyReplace q t alt) := by
  induction alts with
  | nil => intro acc; simp
  | cons a as ih =>
    intro acc
    simp only [List.foldl_cons, List.filter_cons]
    by_cases hg : pyReplace q t a ≠ q
    · rw [if_pos hg, ih]
      simp [hg]
    · rw [if_neg hg, ih]
      simp [hg]

theorem pair_filter_map_eq (q t : List Char) (l : List (List Char))
    (hc : pyContains (pyLower q) t = true) :
    ((l.map (fun a => (t, a))).filter (synCond q)).map
        (fun p => pyReplace q p.1 p.2) =
      (l.filter (fun alt => decide (pyReplace q t alt ≠ q))).map
        (fun alt => pyReplace q t alt) := by
  induction l with
  | nil => simp
  | cons a as ih =>
    simp only [List.map_cons, List.filter_cons]
    by_cases hg : pyReplace q t a ≠ q
    · simp [synCond, hc, hg, ih]
    · simp [synCond, hc, hg, ih]

theorem pair_filter_map_nil (q t : List Char) (l : List (List Char))
    (hc : pyContains (pyLower q) t = false) :
    (l.map (fun a => (t, a))).filter (synCond q) = [] := by
  induction l with
  | nil => simp
  | cons a as ih => simp [synCond, hc, ih]

theorem expansion_outer_fold_eq (q : List Char) :
    ∀ (rules : List (List Char × List (List Char)))
      (acc : List (List Char)),
      rules.foldl (fun acc p =>
        if pyContains (pyLower q) p.1 then
          (p.2.take 2).foldl (fun acc2 alt =>
            if pyReplace q p.1 alt ≠ q then acc2 ++ [pyReplace q p.1 alt]
            else acc2) acc
        else acc) acc =
      acc ++
        ((rules.flatMap (fun p => (p.2.take 2).map (fun a => (p.1, a)))).filter
          (synCond q)).map (fun p => pyReplace q p.1 p.2) := by
  intro rules
  induction rules with
  | nil => intro acc; simp
  | cons r rest ih =>
    intro acc
    simp only [List.foldl_cons, List.flatMap_cons, List.filter_append,
      List.map_append]
    by_cases hc : pyContains (pyLower q) r.1
    · rw [if_pos hc, expansion_inner_fold_eq, ih,
        pair_filter_map_eq q r.1 (r.2.take 2) hc, List.append_assoc]
    · rw [if_neg hc, ih, pair_filter_map_nil q r.1 (r.2.take 2)
        (Bool.not_eq_true _ ▸ hc)]
      simp

theorem replacements_bind_eq :
    Agent.replacements.flatMap (fun p => (p.2.take 2).map (fun a => (p.1, a)))
      = synPairs := by
  decide

def hlVariant (q : List Char) : List Char :=
  str "HyperLiquid " ++ q

def hypeVariant (q : List Char) : List Char :=
  pyReplace q (str "HyperLiquid") (str "HYPE token")

def hlCond (q : List Char) : Bool :=
  ! pyContains (pyLower q) (str "hyperliquid")

def hypeCond (q : List Char) : Bool :=
  [str "token", str "price", str "trading", str "volume"].any
    (fun t => pyContains (pyLower q) t)

/-- `_generate_related_queries` in flattened form: the firing synonym
substitutions in order, then the `HyperLiquid`-prefixed variant, then the
HYPE-token variant, truncated to 4. -/
theorem generate_related_queries_eq (q : List Char) :
    Agent.generate_related_queries q =
      (synList q ++ (if hlCond q then [hlVariant q] else []) ++
        (if hypeCond q then [hypeVariant q] else [])).take 4 := by
  unfold Agent.generate_related_queries
  dsimp only
  rw [expansion_outer_fold_eq q Agent.replacements [], replacements_bind_eq,
    List.nil_append]
  by_cases h1 : pyContains (pyLower q) (str "hyperliquid") <;>
    by_cases h2 : ([str "token", str "price", str "trading",
      str "volume"].any (fun t => pyContains (pyLower q) t)) = true <;>
    simp [hlCond, hlVariant, hypeCond, hypeVariant, h1, h2, synList, synCond]

/-! ### Pairwise distinctness of the expansion list -/

theorem synList_guard (q : List Char) :
    ∀ v ∈ synList q, ∃ p ∈ synPairs,
      v = pyReplace q p.1 p.2 ∧ pyReplace q p.1 p.2 ≠ q := by
  intro v hv
  rcases List.mem_map.mp hv with ⟨p, hp, rfl⟩
  rcases List.mem_filter.mp hp with ⟨hmem, hcond⟩
  refine ⟨p, hmem, rfl, ?_⟩
  simp only [synCond, Bool.and_eq_true, decide_eq_true_eq] at hcond
  exact hcond.2

theorem synList_nodup (q : List Char) : (synList q).Nodup := by
  have hfilter : (synPairs.filter (synCond q)).Nodup :=
    List.Nodup.filter _ (by decide)
  apply List.Nodup.map_on ?_ hfilter
  intro x hx y hy hxy
  by_contra hne
  rcases List.mem_filter.mp hx with ⟨hx1, hx2⟩
  rcases List.mem_filter.mp hy with ⟨hy1, hy2⟩
  simp only [synCond, Bool.and_eq_true, decide_eq_true_eq] at hx2 hy2
  exact syn_pair_replace_ne q x y hx1 hy1 hne hx2.2 hy2.2 hxy

theorem synPairs_count_HY :
    ∀ p ∈ synPairs, p.1.count 'H' = 0 ∧ p.2.count 'H' = 0 ∧
      p.1.count 'Y' = 0 ∧ p.2.count 'Y' = 0 := by
  decide

theorem synList_count_eq (q : List Char) (c : Char)
    (hc : ∀ p ∈ synPairs, p.1.count c = 0 ∧ p.2.count c = 0) :
    ∀ v ∈ synList q, (v.count c : ℤ) = (q.count c : ℤ) := by
  intro v hv
  rcases synList_guard q v hv with ⟨p, hp, rfl, -⟩
  rcases hc p hp with ⟨ht, ha⟩
  rw [count_pyReplace c q p.1 p.2, ht, ha]
  push_cast
  ring

theorem hl_not_mem_syn (q : List Char) : hlVariant q ∉ synList q := by
  intro hmem
  have hv := synList_count_eq q 'H'
    (fun p hp => ⟨(synPairs_count_HY p hp).1, (synPairs_count_HY p hp).2.1⟩)
    _ hmem
  have hcount : ((hlVariant q).count 'H' : ℤ) = 1 + (q.count 'H' : ℤ) := by
    simp only [hlVariant, List.count_append]
    have h1 : (str "HyperLiquid ").count 'H' = 1 := by decide
    rw [h1]
    push_cast
    ring
  omega

theorem q_not_mem_syn (q : List Char) : q ∉ synList q := by
  intro hmem
  rcases synList_guard q q hmem with ⟨p, hp, heq, hneq⟩
  exact hneq heq.symm

theorem hype_ne_q_not_mem_syn (q : List Char) (h : hypeVariant q ≠ q) :
    hypeVariant q ∉ synList q := by
  intro hmem
  have hv := synList_count_eq q 'Y'
    (fun p hp =>
      ⟨(synPairs_count_HY p hp).2.2.1, (synPairs_count_HY p hp).2.2.2⟩)
    _ hmem
  have hocc : 1 ≤ pyOcc q (str "HyperLiquid") :=
    pyOcc_pos q (str "HyperLiquid") (str "HYPE token") h
  have hcount := count_pyReplace 'Y' q (str "HyperLiquid") (str "HYPE token")
  have hY1 : (str "HYPE token").count 'Y' = 1 := by decide
  have hY0 : (str "HyperLiquid").count 'Y' = 0 := by decide
  rw [hY1, hY0] at hcount
  unfold hypeVariant at hv
  norm_num at hcount
  omega

theorem hl_ne_q (q : List Char) : hlVariant q ≠ q := by
  intro h
  have hlen := congrArg List.length h
  simp only [hlVariant, List.length_append] at hlen
  have h12 : (str "HyperLiquid ").length = 12 := by decide
  omega

theorem hype_eq_q_of_no_hl (q : List Char)
    (h1 : pyContains (pyLower q) (str "hyperliquid") = false) :
    hypeVariant q = q := by
  apply pyReplace_eq_self_of_not_contains
  by_contra hc
  have hc' : pyContains q (str "HyperLiquid") = true := by
    revert hc
    cases pyContains q (str "HyperLiquid") <;> simp
  have hmap := pyContains_map Char.toLower q (str "HyperLiquid") hc'
  rw [show (str "HyperLiquid").map Char.toLower = str "hyperliquid" from
    by decide] at hmap
  unfold pyLower at h1
  rw [h1] at hmap
  exact Bool.false_ne_true hmap

theorem nodup_append_one {α : Type} (l : List α) (a : α) (hl : l.Nodup)
    (ha : a ∉ l) : (l ++ [a]).Nodup := by
  rw [List.nodup_append]
  refine ⟨hl, List.nodup_singleton a, ?_⟩
  intro x hx hxa
  rw [List.mem_singleton.mp hxa] at hx
  exact ha hx

theorem nodup_append_two {α : Type} (l : List α) (a b : α) (hl : l.Nodup)
    (ha : a ∉ l) (hb : b ∉ l) (hab : a ≠ b) : (l ++ [a] ++ [b]).Nodup := by
  apply nodup_append_one _ _ (nodup_append_one l a hl ha)
  simp only [List.mem_append, List.mem_singleton]
  push_neg
  exact ⟨hb, Ne.symm hab⟩

/-- The full (pre-truncation) expansion list has no duplicates: firing
synonym substitutions are pairwise separated by character counts, the
`HyperLiquid`-prefixed variant carries one more capital `H` than any
substitution result, and the HYPE-token variant either equals the original
query (which no firing substitution can produce) or carries more capital
`Y`s than anything else in the list. -/
theorem expansion_full_nodup (q : List Char) :
    (synList q ++ (if hlCond q then [hlVariant q] else []) ++
      (if hypeCond q then [hypeVariant q] else [])).Nodup := by
  by_cases h1 : hlCond q = true <;> by_cases h2 : hypeCond q = true
  · rw [if_pos h1, if_pos h2]
    have hq : hypeVariant q = q :=
      hype_eq_q_of_no_hl q (by simpa [hlCond] using h1)
    refine nodup_append_two _ _ _ (synList_nodup q) (hl_not_mem_syn q) ?_ ?_
    · rw [hq]
      exact q_not_mem_syn q
    · rw [hq]
      exact hl_ne_q q
  · rw [if_pos h1, if_neg h2, List.append_nil]
    exact nodup_append_one _ _ (synList_nodup q) (hl_not_mem_syn q)
  · rw [if_neg h1, if_pos h2, List.append_nil]
    apply nodup_append_one _ _ (synList_nodup q)
    by_cases hq : hypeVariant q = q
    · rw [hq]
      exact q_not_mem_syn q
    · exact hype_ne_q_not_mem_syn q hq
  · rw [if_neg h1, if_neg h2, List.append_nil, List.append_nil]
    exact synList_nodup q

/-- Claim C5, amended: the query expander returns at most 4 variants, all
pairwise distinct non-empty strings; however a variant may equal the
original query verbatim — the HYPE-token substitution is appended without
the `!= original_query` guard, and for the query `"price"` the original
itself is among the returned variants. -/
theorem C5_expansion_distinct_nonempty (q : List Char) :
    (Agent.generate_related_queries q).length ≤ 4 ∧
      (Agent.generate_related_queries q).Nodup ∧
      ∀ v ∈ Agent.generate_related_queries q, v ≠ [] := by
  refine ⟨?_, ?_, ?_⟩
  · unfold Agent.generate_related_queries
    exact List.length_take_le 4 _
  · rw [generate_related_queries_eq]
    exact List.Nodup.sublist (List.take_sublist _ _) (expansion_full_nodup q)
  · intro v hv
    rcases generate_related_queries_mem q v hv with
      ⟨p, hp, alt, halt, heq, hne⟩ | heq | ⟨heq, htok⟩
    · by_cases hq : q = []
      · subst hq
        exact hne
      · rw [heq]
        exact pyReplace_ne_nil q p.1 alt hq
          (replacements_alts_ne_nil p hp alt (List.mem_of_mem_take halt))
    · rw [heq]
      simp [str]
    · have hqne : q ≠ [] := by
        intro hq
        subst hq
        exact absurd htok (by decide)
      rw [heq]
      exact pyReplace_ne_nil q (str "HyperLiquid") (str "HYPE token") hqne
        (by simp [str])

/-- Witness for `C5_expansion_distinct_nonempty` at the query `"hello"`,
whose only variant is `"HyperLiquid hello"`. -/
theorem C5_expansion_distinct_nonempty_witness :
    (Agent.generate_related_queries (str "hello")).length ≤ 4 ∧
      (Agent.generate_related_queries (str "hello")).Nodup ∧
      str "HyperLiquid hello" ≠ ([] : List Char) :=
  ⟨(C5_expansion_distinct_nonempty (str "hello")).1,
    (C5_expansion_distinct_nonempty (str "hello")).2.1,
    (C5_expansion_distinct_nonempty (str "hello")).2.2
      (str "HyperLiquid hello") (by decide)⟩
